import Mathlib

set_option autoImplicit false

/-!
Verification of the gem5 address-mapper configuration layer
(src/mem/AddrMapper.py) and of the stats-collection helper script
(jonatan_scripts/get_single_stat_all_runs.py).

The Python file under src/ only declares the SimObject parameters
(defaults included); the translation engine itself lives in
mem/addr_mapper.cc, which is not part of the sources provided.  Every
definition that embeds that missing engine carries a doc comment
starting with "Modelled from the spec:".  Definitions transcribing the
Python sources carry a comment naming the source symbol.
-/

/-- Bit-population helper: fuel-indexed so the recursion is structural
and kernel-evaluable; the fuel only has to dominate the argument. -/
def popcountAux : Nat → Nat → Nat
  | 0, _ => 0
  | fuel + 1, n => if n = 0 then 0 else n % 2 + popcountAux fuel (n / 2)

/-- Number of set bits of a natural number. -/
def popcount (n : Nat) : Nat := popcountAux n n

/-- Modelled from the spec: the GF(2) matrix-vector map `apply` of the
GF2 matrix engine (mem/addr_mapper.cc, absent from src/): output bit
`j` is the parity of `popcount(matrix.row[j] AND addr)`, assembled bit
by bit, row 0 giving the least significant output bit. -/
def gf2ApplyRows (addr : Nat) : List Nat → Nat
  | [] => 0
  | r :: rs => popcount (r &&& addr) % 2 + 2 * gf2ApplyRows addr rs

/-- GF(2) matrix applied to an address; the matrix is a list of row
bitmasks exactly as in the Python parameter lists. -/
def gf2Apply (rows : List Nat) (addr : Nat) : Nat := gf2ApplyRows addr rows

/-- Transcribed from src/src/mem/AddrMapper.py, `generate_identity_matrix`:
the Python list comprehension `[(1 << i) for i in range(size)]`. -/
def generate_identity_matrix (size : Nat) : List Nat :=
  (List.range size).map (fun i => 1 <<< i)

/-- Default of the `bim` parameter of `MatrixAddrMapper`
(src/src/mem/AddrMapper.py): `generate_identity_matrix(64)`. -/
def bim_default : List Nat := generate_identity_matrix 64

/-- Default of the `bim_inv` parameter of `MatrixAddrMapper`
(src/src/mem/AddrMapper.py): `generate_identity_matrix(64)`. -/
def bim_inv_default : List Nat := generate_identity_matrix 64

/-- Default of the `N` parameter of `MatrixAddrMapper`
(src/src/mem/AddrMapper.py): `Param.Int(64, ...)`. -/
def matrixMapper_N_default : Int := 64

/-- Address range with inclusive start and exclusive stop (the gem5
`AddrRange` end bound), so the range denotes `[start, stop)`. -/
structure AddrRange where
  start : Nat
  stop : Nat
  deriving DecidableEq

/-- Size of a half-open address range. -/
def rangeSize (r : AddrRange) : Nat := r.stop - r.start

/-- Membership of an address in a half-open range. -/
def containsAddr (r : AddrRange) (a : Nat) : Bool :=
  decide (r.start ≤ a ∧ a < r.stop)

/-- Non-empty intersection test for two half-open ranges. -/
def rangesIntersect (r1 r2 : AddrRange) : Bool :=
  decide (max r1.start r2.start < min r1.stop r2.stop)

/-- Pairwise disjointness of a list of ranges: every range is disjoint
from every later range. -/
def pairwiseDisjoint : List AddrRange → Bool
  | [] => true
  | r :: rs => rs.all (fun s => !(rangesIntersect r s)) && pairwiseDisjoint rs

/-- Configuration-time failures of the mapper strategies. -/
inductive ConfigError where
  | lengthMismatch
  | sizeMismatch
  | overlappingOriginals
  | widthOutOfRange
  | inverseCheckFailed
  deriving DecidableEq

/-- Boolean success test for `Except`. -/
def exceptIsOk {ε α : Type} : Except ε α → Bool
  | .ok _ => true
  | .error _ => false

/-- Modelled from the spec: eager validation of the Range strategy
(`buildFrom` in §4.2; the C++ RangeAddrMapper constructor is absent
from src/): construction fails when the two vectors differ in length,
when a paired original and remapped range differ in size, or when the
original ranges are not pairwise disjoint. -/
def buildFrom (originals remapped : List AddrRange) :
    Except ConfigError (List (AddrRange × AddrRange)) :=
  if originals.length != remapped.length then .error .lengthMismatch
  else if !((originals.zip remapped).all fun p => rangeSize p.1 == rangeSize p.2) then
    .error .sizeMismatch
  else if !(pairwiseDisjoint originals) then .error .overlappingOriginals
  else .ok (originals.zip remapped)

/-- Modelled from the spec: `translateForward` of the Range strategy
(§4.2; C++ absent from src/): scan the configured pairs for the
original range containing the address; on a hit at pair `p` return
`p.remapped.start + (addr - p.original.start)`, otherwise pass the
address through unchanged. -/
def translateForward (pairs : List (AddrRange × AddrRange)) (addr : Nat) : Nat :=
  match pairs.find? (fun p => containsAddr p.1 addr) with
  | some p => p.2.start + (addr - p.1.start)
  | none => addr

/-- Modelled from the spec: the reverse lookup of one configured pair,
undoing the forward offset of that same pair. -/
def pairedReverse (p : AddrRange × AddrRange) (addr : Nat) : Nat :=
  p.1.start + (addr - p.2.start)

/-- Modelled from the spec: defaults of `original_ranges` and
`remapped_ranges` of `RangeAddrMapper` (§6 table says both default to
the empty sequence; the m5.params default-handling layer is absent
from src/, which passes no explicit default value). -/
def original_ranges_default : List AddrRange := []

/-- Modelled from the spec: see `original_ranges_default`. -/
def remapped_ranges_default : List AddrRange := []

/-- Modelled from the spec: one row of the GF(2) matrix product (§4.1;
C++ absent from src/): row `j` of `A·B` is the XOR of the rows of `B`
selected by the set bits of row `j` of `A`. -/
def mulRow (n : Nat) (arow : Nat) (b : List Nat) : Nat :=
  (List.range n).foldl (fun acc k => if arow.testBit k then acc ^^^ b.getD k 0 else acc) 0

/-- Modelled from the spec: the `N × N` GF(2) matrix product (§4.1). -/
def matMulGF2 (n : Nat) (a b : List Nat) : List Nat :=
  (List.range n).map (fun j => mulRow n (a.getD j 0) b)

/-- Modelled from the spec: `verifyInverse` (§4.1; C++ absent from
src/): computes the GF(2) matrix product in both orders and checks
each against the identity matrix. -/
def verifyInverse (n : Nat) (m minv : List Nat) : Bool :=
  decide (matMulGF2 n m minv = generate_identity_matrix n) &&
  decide (matMulGF2 n minv m = generate_identity_matrix n)

/-- Configured Matrix strategy: bit width plus matrix and inverse. -/
structure MatrixStrategy where
  width : Nat
  bim : List Nat
  bimInv : List Nat

/-- Modelled from the spec: eager validation of the Matrix strategy
(§4.1, §6, §7; C++ absent from src/): the bit width must satisfy
`1 ≤ N ≤ 64` and the supplied inverse must pass `verifyInverse`;
either failure aborts construction with a configuration error. -/
def buildMatrixStrategy (n : Nat) (bim bimInv : List Nat) :
    Except ConfigError MatrixStrategy :=
  if n < 1 ∨ 64 < n then .error .widthOutOfRange
  else if verifyInverse n bim bimInv = false then .error .inverseCheckFailed
  else .ok ⟨n, bim, bimInv⟩

/-- Tagged strategy variant, as suggested by spec §9. -/
inductive MappingStrategy where
  | identity
  | ranges (pairs : List (AddrRange × AddrRange))
  | matrix (n : Nat) (bim bimInv : List Nat)

/-- Forward translation dispatch over the active strategy. -/
def strategyForward : MappingStrategy → Nat → Nat
  | .identity, a => a
  | .ranges ps, a => translateForward ps a
  | .matrix _ bim _, a => gf2Apply bim a

/-- Memory packet, reduced to the only field the mapper touches. -/
structure Packet where
  paddr : Nat
  deriving DecidableEq

/-- Modelled from the spec: `onUpstreamRequest` (§4.4): the packet
address is rewritten with the forward translation of the strategy. -/
def onUpstreamRequest (s : MappingStrategy) (p : Packet) : Packet :=
  { p with paddr := strategyForward s p.paddr }

/-- Modelled from the spec: `onSnoopRequest` (§4.4; C++ absent from
src/): snoop packets travelling from the request-port side to the
response-port side are forwarded without invoking any translation. -/
def onSnoopRequest (s : MappingStrategy) (p : Packet) : Packet := p

/-- Whitespace tokenizer helper, accumulating the current token in
reverse; mirrors the Python `str.split()` with no separator argument:
runs of whitespace separate tokens, empty tokens are dropped. -/
def tokensAux : List Char → List Char → List (List Char)
  | [], cur => if cur.isEmpty then [] else [cur.reverse]
  | c :: cs, cur =>
    if c.isWhitespace then
      if cur.isEmpty then tokensAux cs [] else cur.reverse :: tokensAux cs []
    else tokensAux cs (c :: cur)

/-- Python `line.split()` over a string. -/
def splitWS (s : String) : List String :=
  (tokensAux s.data []).map (fun cs => String.mk cs)

/-- Boolean list-prefix test over characters. -/
def isPrefixB : List Char → List Char → Bool
  | [], _ => true
  | _ :: _, [] => false
  | a :: as, b :: bs => a == b && isPrefixB as bs

/-- Boolean substring-occurrence test over characters: the pattern
occurs as a contiguous run somewhere in the list. -/
def isInfixB (pat : List Char) : List Char → Bool
  | [] => pat.isEmpty
  | c :: cs => isPrefixB pat (c :: cs) || isInfixB pat cs

/-- Python substring containment `pat in hay`. -/
def containsSubstr (hay pat : String) : Bool := isInfixB pat.data hay.data

/-- Transcribed from src/jonatan_scripts/get_single_stat_all_runs.py,
`get_single_stat`: the file is the list of its lines; scan the lines
in order, and on the first line that contains `stat_name` and whose
whitespace-split has more than one token with second token other than
"nan", return that second token (the argument Python passes to
`float`, which is modelled by the token itself); otherwise keep
scanning, and return `none` when the lines run out. -/
def get_single_stat (lines : List String) (stat_name : String) : Option String :=
  match lines with
  | [] => none
  | line :: rest =>
    if containsSubstr line stat_name then
      let parts := splitWS line
      if 1 < parts.length ∧ parts.getD 1 "" ≠ "nan" then some (parts.getD 1 "")
      else get_single_stat rest stat_name
    else get_single_stat rest stat_name

/-- Qualifying-line predicate used to specify `get_single_stat`: the
line contains the stat name, splits into at least two tokens, and its
second token is not "nan". -/
def qualifiesLine (stat_name line : String) : Bool :=
  containsSubstr line stat_name &&
  decide (1 < (splitWS line).length ∧ (splitWS line).getD 1 "" ≠ "nan")

/-- Runtime errors reachable by the averaging branch of
`get_single_stat_all_runs`. -/
inductive PyError where
  | typeError
  | zeroDivisionError
  deriving DecidableEq

/-- Python `sum` over a list that may hold `None`, folding from the
left starting at 0; adding `None` raises `TypeError`.  Stat values are
modelled as rationals. -/
def pySumAux (acc : ℚ) : List (Option ℚ) → Except PyError ℚ
  | [] => .ok acc
  | none :: _ => .error .typeError
  | some x :: rest => pySumAux (acc + x) rest

/-- Python `sum(vals)` starting from 0. -/
def pySum (vals : List (Option ℚ)) : Except PyError ℚ := pySumAux 0 vals

/-- Transcribed from src/jonatan_scripts/get_single_stat_all_runs.py,
the averaging branch `sum(res[variant]) / len(res[variant])`: the sum
is computed first (raising `TypeError` on a `None` entry), then the
division (raising `ZeroDivisionError` on an empty run list). -/
def averageStat (vals : List (Option ℚ)) : Except PyError ℚ :=
  match pySum vals with
  | .error e => .error e
  | .ok s => if vals.length = 0 then .error .zeroDivisionError else .ok (s / (vals.length : ℚ))

/-- Per-run stat values of one variant: each run contributes
`get_single_stat` of its stats file, parsed by the ambient float
parser `pyFloat` when present.  The directory walk of the script is
modelled by passing the file contents as data. -/
def statValues (pyFloat : String → ℚ) (stat_name : String)
    (runs : List (List String)) : List (Option ℚ) :=
  runs.map (fun lines => (get_single_stat lines stat_name).map pyFloat)

/-- Transcribed from src/jonatan_scripts/get_single_stat_all_runs.py,
`get_single_stat_all_runs` with `get_average=True`: per variant, the
list of per-run values is replaced by `sum(values) / len(values)`. -/
def get_single_stat_all_runs_avg (pyFloat : String → ℚ) (stat_name : String)
    (variants : List (String × List (List String))) :
    List (String × Except PyError ℚ) :=
  variants.map (fun v => (v.1, averageStat (statValues pyFloat stat_name v.2)))

/-! Theorems.  Helper lemmas come first, then one theorem (plus
witness where hypotheses occur) per claim. -/

theorem popcountAux_zero (fuel : Nat) : popcountAux fuel 0 = 0 := by
  cases fuel <;> simp [popcountAux]

theorem popcountAux_congr :
    ∀ f1 f2 n : Nat, n ≤ f1 → n ≤ f2 → popcountAux f1 n = popcountAux f2 n := by
  intro f1
  induction f1 with
  | zero =>
    intro f2 n h1 h2
    have hn : n = 0 := Nat.le_zero.mp h1
    subst hn
    rw [popcountAux_zero, popcountAux_zero]
  | succ f ih =>
    intro f2 n h1 h2
    by_cases hn : n = 0
    · subst hn
      rw [popcountAux_zero, popcountAux_zero]
    · obtain ⟨f2p, rfl⟩ : ∃ f2p, f2 = f2p + 1 := ⟨f2 - 1, by omega⟩
      simp only [popcountAux, if_neg hn]
      have hd1 : n / 2 ≤ f := by omega
      have hd2 : n / 2 ≤ f2p := by omega
      rw [ih f2p (n / 2) hd1 hd2]

theorem popcount_div2 (n : Nat) (hn : n ≠ 0) :
    popcount n = n % 2 + popcount (n / 2) := by
  unfold popcount
  obtain ⟨m, rfl⟩ : ∃ m, n = m + 1 := ⟨n - 1, by omega⟩
  simp only [popcountAux, if_neg hn]
  rw [popcountAux_congr m ((m + 1) / 2) ((m + 1) / 2) (by omega) (by omega)]

theorem popcount_two_pow (k : Nat) : popcount (2 ^ k) = 1 := by
  induction k with
  | zero => rfl
  | succ k ih =>
    rw [popcount_div2 (2 ^ (k + 1)) (by positivity)]
    have h2 : (2 : Nat) ^ (k + 1) = 2 ^ k * 2 := by rw [pow_succ]
    rw [h2, Nat.mul_mod_left, Nat.mul_div_cancel _ (by omega : 0 < 2), ih]

theorem popcount_land_one_shift (k addr : Nat) :
    popcount (1 <<< k &&& addr) % 2 = (addr >>> k) % 2 := by
  rw [Nat.one_shiftLeft, Nat.two_pow_and, Nat.shiftRight_eq_div_pow]
  rcases htb : addr.testBit k with _ | _
  · rw [Nat.testBit_to_div_mod] at htb
    simp only [decide_eq_false_iff_not] at htb
    have h0 : addr / 2 ^ k % 2 = 0 := by omega
    simp [h0, popcount, popcountAux_zero]
  · rw [Nat.testBit_to_div_mod] at htb
    simp only [decide_eq_true_eq] at htb
    simp only [Bool.toNat_true, Nat.mul_one, popcount_two_pow, htb]

theorem gf2ApplyRows_identity_shift :
    ∀ n k addr : Nat,
      gf2ApplyRows addr ((List.range n).map fun i => 1 <<< (i + k))
        = (addr >>> k) % 2 ^ n := by
  intro n
  induction n with
  | zero =>
    intro k addr
    simp [gf2ApplyRows, Nat.mod_one]
  | succ n ih =>
    intro k addr
    rw [List.range_succ_eq_map, List.map_cons, List.map_map]
    have hcomp : ((fun i => 1 <<< (i + k)) ∘ Nat.succ) = (fun i => 1 <<< (i + (k + 1))) := by
      funext i
      show 1 <<< (i.succ + k) = 1 <<< (i + (k + 1))
      congr 1
      omega
    rw [hcomp]
    simp only [gf2ApplyRows]
    rw [ih (k + 1), Nat.zero_add, popcount_land_one_shift, Nat.shiftRight_succ]
    rw [pow_succ']
    rw [Nat.mod_mul]

/-- Claim C1: with no matrix configured the defaults of `bim` and
`bim_inv` are the 64 × 64 identity matrix, and the GF(2) matrix-vector
map applied with this default matrix returns every 64-bit address
unchanged: the forward translation of the default Matrix strategy is
the identity on `[0, 2^64)`. -/
theorem matrix_default_identity (addr : Nat) (h : addr < 2 ^ 64) :
    bim_default = generate_identity_matrix 64 ∧
    bim_inv_default = generate_identity_matrix 64 ∧
    strategyForward (MappingStrategy.matrix 64 bim_default bim_inv_default) addr = addr ∧
    gf2Apply bim_default addr = addr := by
  have key : gf2Apply bim_default addr = addr := by
    show gf2ApplyRows addr (generate_identity_matrix 64) = addr
    have hmap : generate_identity_matrix 64
        = (List.range 64).map (fun i => 1 <<< (i + 0)) := by
      simp [generate_identity_matrix]
    rw [hmap, gf2ApplyRows_identity_shift, Nat.shiftRight_zero, Nat.mod_eq_of_lt h]
  exact ⟨rfl, rfl, key, key⟩

/-- Witness for C1 at a concrete 64-bit address. -/
theorem matrix_default_identity_witness :
    (0xDEADBEEF : Nat) < 2 ^ 64 ∧
    gf2Apply bim_default 0xDEADBEEF = 0xDEADBEEF :=
  ⟨by decide, (matrix_default_identity 0xDEADBEEF (by decide)).2.2.2⟩

/-- Claim C2: for every `n`, `generate_identity_matrix n` is a list of
exactly `n` unsigned integers whose entry at index `i` equals `2 ^ i`,
so row `i` has only bit `i` set. -/
theorem generate_identity_matrix_spec (n : Nat) :
    (generate_identity_matrix n).length = n ∧
    ∀ i, i < n → (generate_identity_matrix n).getD i 0 = 2 ^ i := by
  constructor
  · simp [generate_identity_matrix]
  · intro i hi
    have hlen : i < (generate_identity_matrix n).length := by
      simpa [generate_identity_matrix] using hi
    rw [List.getD_eq_getElem _ _ hlen]
    simp [generate_identity_matrix, Nat.one_shiftLeft]

/-- Witness for C2 at `n = 8`, `i = 5`. -/
theorem generate_identity_matrix_spec_witness :
    (generate_identity_matrix 8).length = 8 ∧
    (generate_identity_matrix 8).getD 5 0 = 2 ^ 5 :=
  ⟨(generate_identity_matrix_spec 8).1,
   (generate_identity_matrix_spec 8).2 5 (by decide)⟩

theorem pairwiseDisjoint_iff (l : List AddrRange) :
    pairwiseDisjoint l = true ↔
      List.Pairwise (fun a b => rangesIntersect a b = false) l := by
  induction l with
  | nil => simp [pairwiseDisjoint]
  | cons r rs ih =>
    simp only [pairwiseDisjoint, Bool.and_eq_true, List.all_eq_true,
      Bool.not_eq_true', List.pairwise_cons, ih]

theorem zip_sizes_all_iff (o r : List AddrRange) (hlen : o.length = r.length) :
    ((o.zip r).all fun p => rangeSize p.1 == rangeSize p.2) = true ↔
      ∀ i, ∀ h1 : i < o.length, ∀ h2 : i < r.length,
        rangeSize (o.get ⟨i, h1⟩) = rangeSize (r.get ⟨i, h2⟩) := by
  rw [List.all_eq_true]
  constructor
  · intro hall i h1 h2
    have hi : i < (o.zip r).length := by
      rw [List.length_zip]
      omega
    have hzip : (o.zip r).get ⟨i, hi⟩ = (o.get ⟨i, h1⟩, r.get ⟨i, h2⟩) := by
      simp [List.get_eq_getElem, List.getElem_zip]
    have hmem : (o.get ⟨i, h1⟩, r.get ⟨i, h2⟩) ∈ o.zip r := by
      rw [← hzip]
      exact List.get_mem _ _ _
    simpa using hall _ hmem
  · intro hidx p hp
    obtain ⟨i, hi, hpi⟩ := List.getElem_of_mem hp
    have h1 : i < o.length := by
      have := @List.length_zip AddrRange AddrRange o r
      omega
    have h2 : i < r.length := by
      have := @List.length_zip AddrRange AddrRange o r
      omega
    have hzip : (o.zip r)[i] = (o.get ⟨i, h1⟩, r.get ⟨i, h2⟩) := by
      simp [List.getElem_zip, List.get_eq_getElem]
    rw [← hpi, hzip]
    simpa using hidx i h1 h2

/-- Claim C3: constructing a Range strategy from `originals` and
`remapped` fails with a configuration error if and only if the two
sequences have different lengths, or some paired ranges have different
sizes, or the originals are not pairwise disjoint; the validation is
part of construction itself, before any translation. -/
theorem rangeBuild_error_iff (o r : List AddrRange) :
    exceptIsOk (buildFrom o r) = false ↔
      (o.length ≠ r.length
       ∨ (∃ i, ∃ h1 : i < o.length, ∃ h2 : i < r.length,
            rangeSize (o.get ⟨i, h1⟩) ≠ rangeSize (r.get ⟨i, h2⟩))
       ∨ ¬ List.Pairwise (fun a b => rangesIntersect a b = false) o) := by
  by_cases hlen : o.length = r.length
  · have hbne : (o.length != r.length) = false := by
      simp [hlen]
    by_cases hsz : ((o.zip r).all fun p => rangeSize p.1 == rangeSize p.2) = true
    · by_cases hpd : pairwiseDisjoint o = true
      · have hok : buildFrom o r = .ok (o.zip r) := by
          unfold buildFrom
          rw [hbne, hsz, hpd]
          rfl
        refine iff_of_false ?_ ?_
        · rw [hok]
          simp [exceptIsOk]
        · intro hcases
          rcases hcases with hc | hc | hc
          · exact hc hlen
          · obtain ⟨i, h1, h2, hne⟩ := hc
            exact hne ((zip_sizes_all_iff o r hlen).mp hsz i h1 h2)
          · exact hc ((pairwiseDisjoint_iff o).mp hpd)
      · have herr : buildFrom o r = .error .overlappingOriginals := by
          unfold buildFrom
          rw [hbne, hsz]
          simp only [Bool.not_eq_true] at hpd
          rw [hpd]
          rfl
        rw [herr]
        simp only [exceptIsOk, true_iff]
        refine Or.inr (Or.inr ?_)
        rw [← pairwiseDisjoint_iff]
        simp [hpd]
    · have herr : buildFrom o r = .error .sizeMismatch := by
        unfold buildFrom
        rw [hbne]
        simp only [Bool.not_eq_true] at hsz
        rw [hsz]
        rfl
      rw [herr]
      simp only [exceptIsOk, true_iff]
      refine Or.inr (Or.inl ?_)
      have hnot := (not_iff_not.mpr (zip_sizes_all_iff o r hlen)).mp (by simp [hsz])
      push_neg at hnot
      obtain ⟨i, h1, h2, hne⟩ := hnot
      exact ⟨i, h1, h2, hne⟩
  · have herr : buildFrom o r = .error .lengthMismatch := by
      unfold buildFrom
      have hbne : (o.length != r.length) = true := by
        simp [hlen]
      rw [hbne]
      rfl
    rw [herr]
    simp only [exceptIsOk, true_iff]
    exact Or.inl hlen

/-- Witness for C3: overlapping originals are rejected. -/
theorem rangeBuild_error_iff_witness :
    exceptIsOk (buildFrom [AddrRange.mk 0 16, AddrRange.mk 8 24]
      [AddrRange.mk 100 116, AddrRange.mk 200 216]) = false :=
  (rangeBuild_error_iff [AddrRange.mk 0 16, AddrRange.mk 8 24]
      [AddrRange.mk 100 116, AddrRange.mk 200 216]).mpr
    (Or.inr (Or.inr (by
      intro hpw
      have := (pairwiseDisjoint_iff [AddrRange.mk 0 16, AddrRange.mk 8 24]).mpr hpw
      simp [pairwiseDisjoint, rangesIntersect] at this)))

/-- Claim C4: a Matrix strategy whose supplied inverse candidate does
not satisfy both `M·inverse = I` and `inverse·M = I` over GF(2) fails
construction: `verifyInverse` is exactly the two-sided product check
against the identity, and a failed check makes construction return a
configuration error. -/
theorem matrix_inverse_check (n : Nat) (m minv : List Nat) :
    (verifyInverse n m minv = true ↔
       (matMulGF2 n m minv = generate_identity_matrix n ∧
        matMulGF2 n minv m = generate_identity_matrix n)) ∧
    (¬ (matMulGF2 n m minv = generate_identity_matrix n ∧
        matMulGF2 n minv m = generate_identity_matrix n) →
      exceptIsOk (buildMatrixStrategy n m minv) = false) := by
  have hiff : verifyInverse n m minv = true ↔
      (matMulGF2 n m minv = generate_identity_matrix n ∧
       matMulGF2 n minv m = generate_identity_matrix n) := by
    simp [verifyInverse]
  refine ⟨hiff, ?_⟩
  intro hne
  have hv : verifyInverse n m minv = false := by
    cases hb : verifyInverse n m minv
    · rfl
    · exact absurd (hiff.mp hb) hne
  unfold buildMatrixStrategy
  by_cases hn : n < 1 ∨ 64 < n
  · rw [if_pos hn]
    rfl
  · rw [if_neg hn, if_pos hv]
    rfl

/-- Witness for C4: for `N = 2`, the swap matrix is not an inverse of
the identity, and construction with that pairing is rejected. -/
theorem matrix_inverse_check_witness :
    ¬ (matMulGF2 2 [1, 2] [2, 1] = generate_identity_matrix 2 ∧
       matMulGF2 2 [2, 1] [1, 2] = generate_identity_matrix 2) ∧
    exceptIsOk (buildMatrixStrategy 2 [1, 2] [2, 1]) = false :=
  ⟨by decide, (matrix_inverse_check 2 [1, 2] [2, 1]).2 (by decide)⟩

theorem containsAddr_both_intersect {r1 r2 : AddrRange} {a : Nat}
    (h1 : containsAddr r1 a = true) (h2 : containsAddr r2 a = true) :
    rangesIntersect r1 r2 = true := by
  simp only [containsAddr, decide_eq_true_eq] at h1 h2
  simp only [rangesIntersect, decide_eq_true_eq]
  omega

theorem pairwise_zip_firsts {o r : List AddrRange}
    (h : List.Pairwise (fun a b => rangesIntersect a b = false) o) :
    List.Pairwise (fun p q => rangesIntersect p.1 q.1 = false) (o.zip r) := by
  induction o generalizing r with
  | nil => simp
  | cons a as ih =>
    cases r with
    | nil => simp
    | cons b bs =>
      rcases List.pairwise_cons.mp h with ⟨ha, has⟩
      rw [List.zip_cons_cons]
      refine List.pairwise_cons.mpr ⟨?_, ih has⟩
      rintro ⟨q1, q2⟩ hq
      exact ha q1 (List.of_mem_zip hq).1

theorem find_pair_at_index (l : List (AddrRange × AddrRange))
    (hdisj : List.Pairwise (fun p q => rangesIntersect p.1 q.1 = false) l)
    (i : Nat) (hi : i < l.length) (addr : Nat)
    (hc : containsAddr (l.get ⟨i, hi⟩).1 addr = true) :
    l.find? (fun p => containsAddr p.1 addr) = some (l.get ⟨i, hi⟩) := by
  induction l generalizing i with
  | nil => exact absurd hi (by simp)
  | cons hd tl ih =>
    rcases List.pairwise_cons.mp hdisj with ⟨hhd, htl⟩
    cases i with
    | zero =>
      exact List.find?_cons_of_pos _ hc
    | succ j =>
      have hj : j < tl.length := by
        simpa using hi
      have hget : (hd :: tl).get ⟨j + 1, hi⟩ = tl.get ⟨j, hj⟩ := rfl
      rw [hget] at hc ⊢
      have hmem : tl.get ⟨j, hj⟩ ∈ tl := List.get_mem _ _ _
      have hhdfalse : ¬ (containsAddr hd.1 addr = true) := by
        intro hb
        have hint := containsAddr_both_intersect hb hc
        rw [hhd _ hmem] at hint
        cases hint
      have hstep : List.find? (fun p => containsAddr p.1 addr) (hd :: tl)
          = List.find? (fun p => containsAddr p.1 addr) tl :=
        List.find?_cons_of_neg _ hhdfalse
      rw [hstep]
      exact ih htl j hj hc

/-- Claim C5: for every pairing accepted by Range-strategy
construction and every address inside the original range of the
configured pair at index `i`, the forward translation returns
`remapped[i].start + (addr - originals[i].start)`, and the reverse
lookup of that same pair recovers the address exactly. -/
theorem range_roundtrip (o r : List AddrRange)
    (pairs : List (AddrRange × AddrRange)) (hb : buildFrom o r = .ok pairs)
    (i : Nat) (hi : i < pairs.length) (addr : Nat)
    (hc : containsAddr (pairs.get ⟨i, hi⟩).1 addr = true) :
    translateForward pairs addr
        = (pairs.get ⟨i, hi⟩).2.start + (addr - (pairs.get ⟨i, hi⟩).1.start) ∧
      pairedReverse (pairs.get ⟨i, hi⟩) (translateForward pairs addr) = addr := by
  have hdisj : List.Pairwise (fun p q => rangesIntersect p.1 q.1 = false) pairs := by
    unfold buildFrom at hb
    by_cases h1 : (o.length != r.length) = true
    · rw [if_pos h1] at hb
      cases hb
    · rw [if_neg h1] at hb
      by_cases h2 : (!((o.zip r).all fun p => rangeSize p.1 == rangeSize p.2)) = true
      · rw [if_pos h2] at hb
        cases hb
      · rw [if_neg h2] at hb
        by_cases h3 : (!(pairwiseDisjoint o)) = true
        · rw [if_pos h3] at hb
          cases hb
        · rw [if_neg h3] at hb
          have hpairs : pairs = o.zip r := by
            cases hb
            rfl
          have hpd : pairwiseDisjoint o = true := by
            simpa using h3
          rw [hpairs]
          exact pairwise_zip_firsts ((pairwiseDisjoint_iff o).mp hpd)
  have hfind := find_pair_at_index pairs hdisj i hi addr hc
  have htf : translateForward pairs addr
      = (pairs.get ⟨i, hi⟩).2.start + (addr - (pairs.get ⟨i, hi⟩).1.start) := by
    unfold translateForward
    rw [hfind]
  refine ⟨htf, ?_⟩
  rw [htf]
  simp only [containsAddr, decide_eq_true_eq] at hc
  unfold pairedReverse
  omega

/-- Witness for C5: the spec §8 example scenario: original
`[0x1000, 0x2000)` remapped to `[0x9000, 0xA000)` sends `0x1500` to
`0x9500`, and the paired reverse lookup recovers `0x1500`. -/
theorem range_roundtrip_witness :
    translateForward [(AddrRange.mk 0x1000 0x2000, AddrRange.mk 0x9000 0xA000)] 0x1500
        = 0x9500 ∧
      pairedReverse (AddrRange.mk 0x1000 0x2000, AddrRange.mk 0x9000 0xA000)
        (translateForward
          [(AddrRange.mk 0x1000 0x2000, AddrRange.mk 0x9000 0xA000)] 0x1500)
        = 0x1500 := by
  have h := range_roundtrip [AddrRange.mk 0x1000 0x2000] [AddrRange.mk 0x9000 0xA000]
      [(AddrRange.mk 0x1000 0x2000, AddrRange.mk 0x9000 0xA000)] (by rfl)
      0 (by decide) 0x1500 (by decide)
  simpa using h

/-- Claim C6: a snoop packet traversing the mapper in the
downstream-to-upstream direction is forwarded with a bit-identical
address, whatever strategy is configured: no translation is invoked
on snoops. -/
theorem snoop_passthrough (s : MappingStrategy) (p : Packet) :
    (onSnoopRequest s p).paddr = p.paddr ∧ onSnoopRequest s p = p :=
  ⟨rfl, rfl⟩

/-- Claim C7: the bit-width parameter `N` defaults to 64, the default
satisfies `1 ≤ N ≤ 64`, and configuring a width outside `[1, 64]` — in
particular one larger than the 64-bit address word — is rejected at
construction time with a configuration error. -/
theorem bitwidth_constraint :
    matrixMapper_N_default = 64 ∧
    (1 ≤ matrixMapper_N_default ∧ matrixMapper_N_default ≤ 64) ∧
    ∀ (n : Nat) (m minv : List Nat), (n < 1 ∨ 64 < n) →
      exceptIsOk (buildMatrixStrategy n m minv) = false := by
  refine ⟨rfl, ⟨by decide, by decide⟩, ?_⟩
  intro n m minv hn
  unfold buildMatrixStrategy
  rw [if_pos hn]
  rfl

/-- Witness for C7 at the concrete out-of-range width 65. -/
theorem bitwidth_constraint_witness :
    ((65 : Nat) < 1 ∨ 64 < (65 : Nat)) ∧
    exceptIsOk (buildMatrixStrategy 65 bim_default bim_inv_default) = false :=
  ⟨Or.inr (by decide),
   bitwidth_constraint.2.2 65 bim_default bim_inv_default (Or.inr (by decide))⟩

/-- Claim C8: the `original_ranges` and `remapped_ranges` parameters
of the Range strategy default to the empty sequence, a Range mapper
built from the defaults is accepted, and with no configured pair every
address passes through unchanged, so the default Range mapper is an
identity mapping. -/
theorem range_defaults_empty :
    original_ranges_default = [] ∧ remapped_ranges_default = [] ∧
    buildFrom original_ranges_default remapped_ranges_default = Except.ok [] ∧
    ∀ addr : Nat, strategyForward (MappingStrategy.ranges []) addr = addr :=
  ⟨rfl, rfl, rfl, fun _ => rfl⟩

/-- Claim C9: `get_single_stat` returns the second whitespace token of
the first line that contains the stat name, splits into more than one
token, and whose second token is not "nan"; all other lines are
skipped and scanning continues; with no qualifying line the result is
`none`. -/
theorem get_single_stat_spec (lines : List String) (nm : String) :
    get_single_stat lines nm
      = (lines.find? (fun l => qualifiesLine nm l)).map
          (fun l => (splitWS l).getD 1 "") := by
  induction lines with
  | nil => rfl
  | cons line rest ih =>
    by_cases hc : containsSubstr line nm = true
    · by_cases hq : (1 < (splitWS line).length ∧ (splitWS line).getD 1 "" ≠ "nan")
      · have hql : qualifiesLine nm line = true := by
          simp only [qualifiesLine, Bool.and_eq_true, decide_eq_true_eq]
          exact ⟨hc, hq⟩
        have hfind : (line :: rest).find? (fun l => qualifiesLine nm l)
            = some line := List.find?_cons_of_pos _ hql
        simp only [get_single_stat, if_pos hc, if_pos hq, hfind]
        rfl
      · have hql : ¬ (qualifiesLine nm line = true) := by
          simp only [qualifiesLine, Bool.and_eq_true, decide_eq_true_eq]
          intro hand
          exact hq hand.2
        have hfind : (line :: rest).find? (fun l => qualifiesLine nm l)
            = rest.find? (fun l => qualifiesLine nm l) :=
          List.find?_cons_of_neg _ hql
        simp only [get_single_stat, if_pos hc, if_neg hq, hfind, ih]
    · have hql : ¬ (qualifiesLine nm line = true) := by
        simp only [qualifiesLine, Bool.and_eq_true, decide_eq_true_eq]
        intro hand
        exact hc hand.1
      have hfind : (line :: rest).find? (fun l => qualifiesLine nm l)
          = rest.find? (fun l => qualifiesLine nm l) :=
        List.find?_cons_of_neg _ hql
      simp only [get_single_stat, if_neg hc, hfind, ih]

theorem pySumAux_eq (vals : List (Option ℚ)) :
    ∀ acc : ℚ,
      pySumAux acc vals
        = if vals.any (fun x => x.isNone) then Except.error PyError.typeError
          else Except.ok (acc + (vals.filterMap id).sum) := by
  induction vals with
  | nil =>
    intro acc
    simp [pySumAux]
  | cons v rest ih =>
    intro acc
    cases v with
    | none => simp [pySumAux]
    | some x =>
      simp only [pySumAux, ih (acc + x), List.any_cons, Option.isNone_some,
        Bool.false_or, List.filterMap_cons, id, List.sum_cons]
      by_cases hrest : rest.any (fun y => y.isNone) = true
      · rw [if_pos hrest, if_pos hrest]
      · rw [if_neg hrest, if_neg hrest]
        congr 1
        ring

theorem averageStat_eq (vals : List (Option ℚ)) :
    averageStat vals
      = if vals = [] then Except.error PyError.zeroDivisionError
        else if vals.any (fun x => x.isNone) then Except.error PyError.typeError
        else Except.ok ((vals.filterMap id).sum / (vals.length : ℚ)) := by
  by_cases hnone : vals.any (fun x => x.isNone) = true
  · have hsum : pySum vals = Except.error PyError.typeError := by
      unfold pySum
      rw [pySumAux_eq vals 0, if_pos hnone]
    have hne : vals ≠ [] := by
      intro hnil
      rw [hnil] at hnone
      cases hnone
    simp only [averageStat, hsum, if_neg hne, if_pos hnone]
  · have hsum : pySum vals = Except.ok ((vals.filterMap id).sum) := by
      unfold pySum
      rw [pySumAux_eq vals 0, if_neg hnone, zero_add]
    by_cases hnil : vals = []
    · subst hnil
      simp [averageStat, pySum, pySumAux]
    · have hlen : ¬ (vals.length = 0) := by
        simpa [List.length_eq_zero] using hnil
      simp only [averageStat, hsum, if_neg hlen, if_neg hnil, if_neg hnone]

/-- Claim C10: with `get_average=True` the script returns, per
variant, the arithmetic mean `sum(values) / len(values)` of the
per-run stat values; the `ok` branch is reached exactly when no run
produced `None` and the variant has at least one run, otherwise the
error branch is reached: `TypeError` when a `None` is summed,
`ZeroDivisionError` when the run list is empty. -/
theorem get_average_spec (pyFloat : String → ℚ) (nm : String)
    (variants : List (String × List (List String))) :
    get_single_stat_all_runs_avg pyFloat nm variants
      = variants.map (fun v =>
          (v.1,
           if statValues pyFloat nm v.2 = [] then Except.error PyError.zeroDivisionError
           else if (statValues pyFloat nm v.2).any (fun x => x.isNone) then
             Except.error PyError.typeError
           else Except.ok (((statValues pyFloat nm v.2).filterMap id).sum
             / ((statValues pyFloat nm v.2).length : ℚ)))) := by
  unfold get_single_stat_all_runs_avg
  refine List.map_congr_left ?_
  intro v _
  rw [averageStat_eq]
